import Mathlib

/-!
Verification of the `rustwemoji-parser` tokenizer (src/lib.rs).

The development shallowly embeds the library with the `discord` feature
enabled (so the `CustomEmoji` variant and the markup scanner are present),
and also the variant with the feature disabled.  Strings are modelled at the
Unicode-scalar level (`List Char`); the byte indices the Rust code obtains
from the regex engine always fall on character boundaries, so scalar
positions are the faithful abstraction.  The external crate `rustwemoji`
only provides the lookup function `get`; every definition is parameterised
by that resolver.

The static regex `<a?:[a-zA-Z0-9_]+:([0-9]{17,19})>` is embedded as the
executable matcher `matchAt`.  For this pattern the leftmost-first
(backtracking-preference) match at a fixed position is unique: the name run
must be a maximal run of `[a-zA-Z0-9_]` because it has to be followed by
`:` which is not a name character, the id run must be a maximal digit run
because it has to be followed by `>`, and the optional `a` flag is decided
by the character after `<`.  Theorem `matchAt_some_iff` below characterises
the matcher by the shape of the matched prefix, which justifies the
determinisation.  `findFromFuel` embeds `Regex::find_iter` (leftmost-first,
non-overlapping, resuming at each match end); the fuel argument is only a
structural-termination device and is always called with enough fuel.
-/

namespace RustwemojiParser

/-- Resolver contract of the external `rustwemoji::get` lookup:
a single-character string to optional png bytes (bytes as naturals). -/
abbrev Resolver := String → Option (List Nat)

/-- `enum Token` from src/lib.rs (with the `discord` feature, so the
`CustomEmoji` variant is present). -/
inductive Token where
  | Text : String → Token
  | Emoji : List Nat → Token
  | CustomEmoji : String → Token
deriving DecidableEq, Repr

/-- `Token::new_text`. -/
def Token.new_text (s : String) : Token := Token.Text s

/-- `Token::new_emoji`. -/
def Token.new_emoji (v : List Nat) : Token := Token.Emoji v

/-- `Token::new_custom_emoji`: interpolates the id into the fixed cdn URL
template (the `format!` call in src/lib.rs). -/
def Token.new_custom_emoji (s : String) : Token :=
  Token.CustomEmoji ("https://cdn.discordapp.com/emojis/" ++ s ++ ".png?size=96")

/-- `raw_parse_emoji` from src/lib.rs: map each scalar value to its
single-character string, then map the resolver over it. -/
def raw_parse_emoji (get : Resolver) (s : String) : List Token :=
  (s.toList.map (fun f => f.toString)).map (fun f =>
    match get f with
    | some v => Token.new_emoji v
    | none => Token.new_text f)

/-- The character class `[a-zA-Z0-9_]` of the markup regex (ASCII). -/
def isNameChar (c : Char) : Bool := c.isAlphanum || c = '_'

/-- Matcher for the `a?:` part right after `<`: consumes the optional
animation flag and the first `:`, returning the consumed length and the
remaining input.  (If the character after `<` is `a` the regex can only
proceed by consuming it, since the alternative requires `:` there.) -/
def matchFlagColon : List Char → Option (Nat × List Char)
  | c :: r =>
    if c = 'a' then
      match r with
      | c2 :: r2 => if c2 = ':' then some (2, r2) else none
      | [] => none
    else if c = ':' then some (1, r) else none
  | [] => none

/-- Matcher for the `[a-zA-Z0-9_]+:` part: the name run is the maximal run
of name characters (it must be followed by `:`, which is not a name
character, so backtracking cannot produce a shorter one). -/
def matchNameColon (l : List Char) : Option (Nat × List Char) :=
  let name := l.takeWhile isNameChar
  if name.length = 0 then none
  else
    match l.dropWhile isNameChar with
    | c :: r => if c = ':' then some (name.length + 1, r) else none
    | [] => none

/-- Matcher for the `([0-9]{17,19})>` part: the digit run is the maximal
run of ASCII digits (any shorter greedy choice is followed by a digit, not
`>`), it must have length 17..19 and be followed by `>`.  Returns the
consumed length and the capture-group-1 string. -/
def matchIdGt (l : List Char) : Option (Nat × String) :=
  let ds := l.takeWhile Char.isDigit
  if 17 ≤ ds.length ∧ ds.length ≤ 19 then
    match l.dropWhile Char.isDigit with
    | c :: _ => if c = '>' then some (ds.length + 1, String.mk ds) else none
    | [] => none
  else none

/-- The whole regex `<a?:[a-zA-Z0-9_]+:([0-9]{17,19})>` anchored at the
head of `l`: returns the match length and the capture-group-1 string. -/
def matchAt : List Char → Option (Nat × String)
  | c :: rest =>
    if c = '<' then
      match matchFlagColon rest with
      | some (n1, r1) =>
        match matchNameColon r1 with
        | some (n2, r2) =>
          match matchIdGt r2 with
          | some (n3, id) => some (1 + n1 + n2 + n3, id)
          | none => none
        | none => none
      | none => none
    else none
  | [] => none

/-- `Regex::find_iter`: scan positions left to right, record the leftmost
match, resume after its end (non-overlapping).  `fuel` only forces
structural termination; `findFrom` supplies `l.length`, which suffices
because every step consumes at least one character. -/
def findFromFuel : Nat → List Char → Nat → List (Nat × Nat × String)
  | 0, _, _ => []
  | _ + 1, [], _ => []
  | fuel + 1, c :: rest, pos =>
    match matchAt (c :: rest) with
    | some (len, id) =>
      (pos, pos + len, id) :: findFromFuel fuel ((c :: rest).drop len) (pos + len)
    | none => findFromFuel fuel rest (pos + 1)

/-- All matches of the markup regex in `l`, as (start, end, capture-1)
triples with absolute positions, starting the scan at position `pos`. -/
def findFrom (l : List Char) (pos : Nat) : List (Nat × Nat × String) :=
  findFromFuel l.length l pos

/-- Body of the `for m in re.find_iter(&s)` loop of `raw_parse`
(discord variant): the accumulator is the `tokens` vector paired with the
`last` cursor; the step extends with the tokens of `s[last..start]`,
pushes the custom-emoji token and sets `last = end`. -/
def parseStep (get : Resolver) (l : List Char) (acc : List Token × Nat)
    (m : Nat × Nat × String) : List Token × Nat :=
  (acc.1 ++ raw_parse_emoji get (String.mk ((l.drop acc.2).take (m.1 - acc.2)))
    ++ [Token.new_custom_emoji m.2.2], m.2.1)

/-- `raw_parse` from src/lib.rs with the `discord` feature: fold the loop
body over the regex matches, then extend with the tokens of the trailing
span `s[last..]`.  (The id pushed for each match is the capture group of
that match; theorem `claim_c10_no_panic` proves this equal to the source's
re-run of `captures` on the matched substring, with every `unwrap` and
slice modelled.) -/
def raw_parse (get : Resolver) (s : String) : List Token :=
  let l := s.toList
  let r := (findFrom l 0).foldl (parseStep get l) ([], 0)
  r.1 ++ raw_parse_emoji get (String.mk (l.drop r.2))

/-- `parse` (synchronous, `discord` feature enabled). -/
def parse (get : Resolver) (s : String) : List Token := raw_parse get s

/-- `raw_parse` with the `discord` feature disabled. -/
def raw_parse_nodiscord (get : Resolver) (s : String) : List Token :=
  raw_parse_emoji get s

/-- `parse` (synchronous) with the `discord` feature disabled. -/
def parse_nodiscord (get : Resolver) (s : String) : List Token :=
  raw_parse_nodiscord get s

/-- Rust string slicing `s[a..b]`: `none` models the panic when `a > b` or
`b` is out of bounds (character-boundary panics cannot arise in the
scalar-level model). -/
def sliceChecked (l : List Char) (a b : Nat) : Option (List Char) :=
  if a ≤ b ∧ b ≤ l.length then some ((l.drop a).take (b - a)) else none

/-- `re.captures(s).map(|c| c.get(1).unwrap().as_str())`: group 1 of the
leftmost match.  Group 1 of this pattern always participates in a match
(it is not optional), which is why the matcher returns it directly. -/
def capturesGroup1 : List Char → Option String
  | [] => none
  | c :: rest =>
    match matchAt (c :: rest) with
    | some (_, id) => some id
    | none => capturesGroup1 rest

/-- The match loop of `raw_parse` with every fallible step explicit:
both slices of the loop body, the `captures(...).unwrap()` re-run on the
matched substring, and the trailing slice `s[last..]`.  A `none` anywhere
models a panic of the Rust code. -/
def tokensFromChecked (get : Resolver) (l : List Char) :
    List (Nat × Nat × String) → Nat → Option (List Token)
  | [], last => do
    let text ← sliceChecked l last l.length
    pure (raw_parse_emoji get (String.mk text))
  | (st, en, _) :: ms, last => do
    let text ← sliceChecked l last st
    let emoji ← sliceChecked l st en
    let id ← capturesGroup1 emoji
    let rest ← tokensFromChecked get l ms en
    pure (raw_parse_emoji get (String.mk text) ++ Token.new_custom_emoji id :: rest)

/-- `raw_parse` (discord variant) with all panics modelled as `none`. -/
def raw_parse_checked (get : Resolver) (s : String) : Option (List Token) :=
  tokensFromChecked get s.toList (findFrom s.toList 0) 0

/-- The cursor algorithm of §4.1/§4.3 of the spec, written as a recursion
over the match list: emit the span from the cursor to the match start,
then the custom-emoji token, continue with the cursor at the match end;
after the last match emit the trailing span. -/
def tokensFromMatches (get : Resolver) (l : List Char) :
    List (Nat × Nat × String) → Nat → List Token
  | [], last => raw_parse_emoji get (String.mk (l.drop last))
  | (st, en, id) :: ms, last =>
    raw_parse_emoji get (String.mk ((l.drop last).take (st - last))) ++
      Token.new_custom_emoji id :: tokensFromMatches get l ms en

/-- The literal source text represented by each token of
`tokensFromMatches`: one single-character string per scalar of a plain
span, and the matched markup substring for each custom-emoji token. -/
def litsOf (l : List Char) : List (Nat × Nat × String) → Nat → List String
  | [], last => (l.drop last).map Char.toString
  | (st, en, _) :: ms, last =>
    ((l.drop last).take (st - last)).map Char.toString ++
      String.mk ((l.drop st).take (en - st)) :: litsOf l ms en

/-- The literal form a token stands for: a `Text` token stands for exactly
its own string, an `Emoji` token for the single-scalar string the resolver
mapped to its bytes, and a `CustomEmoji` token for a full markup match
whose capture produced the interpolated id. -/
def Represents (get : Resolver) : Token → String → Prop
  | Token.Text t, str => str = t
  | Token.Emoji v, str => (∃ c : Char, str = c.toString) ∧ get str = some v
  | Token.CustomEmoji u, str => ∃ id,
      matchAt str.toList = some (str.toList.length, id) ∧
      Token.CustomEmoji u = Token.new_custom_emoji id

/-- Spec-side description of a custom-emoji markup reference: `<` optional
animation flag `:` name `:` id `>` with name a nonempty run of ASCII
letters/digits/underscore and id a run of 17 to 19 ASCII digits, the
extracted id being exactly that digit run. -/
def IsMarkup (str : String) (id : String) : Prop :=
  ∃ flag name ds : List Char,
    str.toList = '<' :: (flag ++ ':' :: (name ++ ':' :: (ds ++ ['>']))) ∧
    (flag = [] ∨ flag = ['a']) ∧
    name ≠ [] ∧ (∀ c ∈ name, isNameChar c = true) ∧
    (∀ c ∈ ds, Char.isDigit c = true) ∧
    17 ≤ ds.length ∧ ds.length ≤ 19 ∧
    id = String.mk ds

/-- Well-formedness of a match list relative to the scanned text and a
cursor: matches are in bounds, in left-to-right order, non-overlapping,
each really is a regex match at its start position, and no position
outside the recorded matches starts a match (leftmost-first
completeness). -/
inductive SegsOK (l : List Char) : Nat → List (Nat × Nat × String) → Prop where
  | nil : ∀ last, last ≤ l.length →
      (∀ k, last ≤ k → matchAt (l.drop k) = none) →
      SegsOK l last []
  | cons : ∀ last st en id ms,
      last ≤ st →
      (∀ k, last ≤ k → k < st → matchAt (l.drop k) = none) →
      matchAt (l.drop st) = some (en - st, id) →
      st < en →
      en ≤ l.length →
      SegsOK l en ms →
      SegsOK l last ((st, en, id) :: ms)

/-! ### Generic string and list helpers -/

theorem string_mk_append (a b : List Char) :
    String.mk a ++ String.mk b = String.mk (a ++ b) := rfl

theorem string_mk_toList (s : String) : String.mk s.toList = s := rfl

theorem toList_string_mk (l : List Char) : (String.mk l).toList = l := rfl

theorem char_toString (c : Char) : c.toString = String.mk [c] := rfl

theorem takeWhile_append_cons {p : Char → Bool} :
    ∀ (xs : List Char) (y : Char) (ys : List Char),
      (∀ c ∈ xs, p c = true) → p y = false →
      (xs ++ y :: ys).takeWhile p = xs := by
  intro xs y ys hxs hy
  induction xs with
  | nil => simp [List.takeWhile_cons, hy]
  | cons x xs ih =>
    have hx : p x = true := hxs x (List.mem_cons_self x xs)
    simp only [List.cons_append, List.takeWhile_cons, hx, if_true]
    have := ih (fun c hc => hxs c (List.mem_cons_of_mem x hc))
    simp [this]

theorem dropWhile_append_cons {p : Char → Bool} :
    ∀ (xs : List Char) (y : Char) (ys : List Char),
      (∀ c ∈ xs, p c = true) → p y = false →
      (xs ++ y :: ys).dropWhile p = y :: ys := by
  intro xs y ys hxs hy
  induction xs with
  | nil => simp [List.dropWhile_cons, hy]
  | cons x xs ih =>
    have hx : p x = true := hxs x (List.mem_cons_self x xs)
    simp only [List.cons_append, List.dropWhile_cons, hx, if_true]
    exact ih (fun c hc => hxs c (List.mem_cons_of_mem x hc))

/-! ### Characterisation of the embedded regex matcher -/

theorem matchFlagColon_some_iff {r : List Char} {n1 : Nat} {r1 : List Char} :
    matchFlagColon r = some (n1, r1) ↔
      (n1 = 1 ∧ r = ':' :: r1) ∨ (n1 = 2 ∧ r = 'a' :: ':' :: r1) := by
  constructor
  · intro h
    cases r with
    | nil => simp [matchFlagColon] at h
    | cons c rest =>
      by_cases hca : c = 'a'
      · subst hca
        cases rest with
        | nil => simp [matchFlagColon] at h
        | cons c2 r2 =>
          by_cases hc2 : c2 = ':'
          · subst hc2
            simp [matchFlagColon] at h
            right
            exact ⟨h.1.symm, by rw [h.2]⟩
          · simp [matchFlagColon, hc2] at h
      · by_cases hcc : c = ':'
        · subst hcc
          simp [matchFlagColon] at h
          left
          exact ⟨h.1.symm, by rw [h.2]⟩
        · simp [matchFlagColon, hca, hcc] at h
  · intro h
    rcases h with ⟨hn, hr⟩ | ⟨hn, hr⟩
    · subst hn; subst hr; simp [matchFlagColon]
    · subst hn; subst hr; simp [matchFlagColon]

theorem matchNameColon_some_iff {r : List Char} {n2 : Nat} {r2 : List Char} :
    matchNameColon r = some (n2, r2) ↔
      ∃ name : List Char, r = name ++ ':' :: r2 ∧ name ≠ [] ∧
        (∀ c ∈ name, isNameChar c = true) ∧ n2 = name.length + 1 := by
  constructor
  · intro h
    refine ⟨r.takeWhile isNameChar, ?_, ?_, ?_, ?_⟩
    · simp only [matchNameColon] at h
      split at h
      · exact absurd h (by simp)
      · split at h
        · rename_i heq c rest hdw
          split at h
          · rename_i hc
            subst hc
            simp only [Option.some.injEq, Prod.mk.injEq] at h
            rw [← h.2, ← hdw]
            exact (List.takeWhile_append_dropWhile _ _).symm
          · exact absurd h (by simp)
        · exact absurd h (by simp)
    · simp only [matchNameColon] at h
      split at h
      · exact absurd h (by simp)
      · rename_i hne
        intro hnil
        rw [hnil] at hne
        simp at hne
    · intro c hc
      exact List.mem_takeWhile_imp hc
    · simp only [matchNameColon] at h
      split at h
      · exact absurd h (by simp)
      · split at h
        · split at h
          · simp only [Option.some.injEq, Prod.mk.injEq] at h
            exact h.1.symm
          · exact absurd h (by simp)
        · exact absurd h (by simp)
  · rintro ⟨name, hr, hne, hmem, hn⟩
    subst hr; subst hn
    have hcolon : isNameChar ':' = false := by decide
    have htw : (name ++ ':' :: r2).takeWhile isNameChar = name :=
      takeWhile_append_cons name ':' r2 hmem hcolon
    have hdw : (name ++ ':' :: r2).dropWhile isNameChar = ':' :: r2 :=
      dropWhile_append_cons name ':' r2 hmem hcolon
    have hlen : name.length ≠ 0 := by
      intro h0
      exact hne (List.length_eq_zero.mp h0)
    simp [matchNameColon, htw, hdw, hlen]

theorem matchIdGt_some_iff {r : List Char} {n3 : Nat} {id : String} :
    matchIdGt r = some (n3, id) ↔
      ∃ (ds rest : List Char), r = ds ++ '>' :: rest ∧
        (∀ c ∈ ds, Char.isDigit c = true) ∧
        17 ≤ ds.length ∧ ds.length ≤ 19 ∧
        n3 = ds.length + 1 ∧ id = String.mk ds := by
  constructor
  · intro h
    simp only [matchIdGt] at h
    split at h
    · rename_i hbounds
      split at h
      · rename_i heq c rest hdw
        split at h
        · rename_i hc
          subst hc
          simp only [Option.some.injEq, Prod.mk.injEq] at h
          refine ⟨r.takeWhile Char.isDigit, rest, ?_,
            (fun c hc => List.mem_takeWhile_imp hc), hbounds.1, hbounds.2,
            h.1.symm, h.2.symm⟩
          rw [← hdw]
          exact (List.takeWhile_append_dropWhile _ _).symm
        · exact absurd h (by simp)
      · exact absurd h (by simp)
    · exact absurd h (by simp)
  · rintro ⟨ds, rest, hr, hmem, h17, h19, hn, hid⟩
    subst hr; subst hn; subst hid
    have hgt : Char.isDigit '>' = false := by decide
    have htw : (ds ++ '>' :: rest).takeWhile Char.isDigit = ds :=
      takeWhile_append_cons ds '>' rest hmem hgt
    have hdw : (ds ++ '>' :: rest).dropWhile Char.isDigit = '>' :: rest :=
      dropWhile_append_cons ds '>' rest hmem hgt
    simp [matchIdGt, htw, hdw, h17, h19]

/-- Shape characterisation of the anchored matcher: it succeeds exactly on
prefixes of the form `<` flag `:` name `:` digits `>`, with the length and
the capture determined by the (necessarily unique) decomposition. -/
theorem matchAt_some_iff {l : List Char} {len : Nat} {id : String} :
    matchAt l = some (len, id) ↔
      ∃ flag name ds rest : List Char,
        l = '<' :: (flag ++ ':' :: (name ++ ':' :: (ds ++ '>' :: rest))) ∧
        (flag = [] ∨ flag = ['a']) ∧
        name ≠ [] ∧ (∀ c ∈ name, isNameChar c = true) ∧
        (∀ c ∈ ds, Char.isDigit c = true) ∧
        17 ≤ ds.length ∧ ds.length ≤ 19 ∧
        len = flag.length + name.length + ds.length + 4 ∧
        id = String.mk ds := by
  constructor
  · intro h
    cases l with
    | nil => simp [matchAt] at h
    | cons c rest =>
      simp only [matchAt] at h
      split at h
      · rename_i hc
        subst hc
        split at h
        · rename_i n1 r1 hfc
          split at h
          · rename_i n2 r2 hnc
            split at h
            · rename_i n3 id0 hig
              simp only [Option.some.injEq, Prod.mk.injEq] at h
              obtain ⟨hlen, hid⟩ := h
              rcases matchNameColon_some_iff.mp hnc with ⟨name, hr1, hne, hnm, hn2⟩
              rcases matchIdGt_some_iff.mp hig with
                ⟨ds, tail, hr2, hdm, h17, h19, hn3, hid0⟩
              rcases matchFlagColon_some_iff.mp hfc with ⟨hn1, hrest⟩ | ⟨hn1, hrest⟩
              · refine ⟨[], name, ds, tail, ?_, Or.inl rfl, hne, hnm, hdm, h17, h19,
                  ?_, ?_⟩
                · rw [hrest, hr1, hr2]; rfl
                · simp only [List.length_nil]; omega
                · rw [← hid, hid0]
              · refine ⟨['a'], name, ds, tail, ?_, Or.inr rfl, hne, hnm, hdm, h17, h19,
                  ?_, ?_⟩
                · rw [hrest, hr1, hr2]; rfl
                · simp only [List.length_cons, List.length_nil]; omega
                · rw [← hid, hid0]
            · exact absurd h (by simp)
          · exact absurd h (by simp)
        · exact absurd h (by simp)
      · exact absurd h (by simp)
  · rintro ⟨flag, name, ds, rest, hl, hflag, hne, hnm, hdm, h17, h19, hlen, hid⟩
    subst hl; subst hlen; subst hid
    have hnc : matchNameColon (name ++ ':' :: (ds ++ '>' :: rest)) =
        some (name.length + 1, ds ++ '>' :: rest) :=
      matchNameColon_some_iff.mpr ⟨name, rfl, hne, hnm, rfl⟩
    have hig : matchIdGt (ds ++ '>' :: rest) = some (ds.length + 1, String.mk ds) :=
      matchIdGt_some_iff.mpr ⟨ds, rest, rfl, hdm, h17, h19, rfl, rfl⟩
    rcases hflag with hf | hf
    · subst hf
      have hfc : matchFlagColon ([] ++ ':' :: (name ++ ':' :: (ds ++ '>' :: rest))) =
          some (1, name ++ ':' :: (ds ++ '>' :: rest)) :=
        matchFlagColon_some_iff.mpr (Or.inl ⟨rfl, rfl⟩)
      simp only [matchAt, if_pos rfl, if_true, eq_self_iff_true, hfc, hnc, hig,
        Option.some.injEq, Prod.mk.injEq, List.length_nil]
      exact ⟨by omega, trivial⟩
    · subst hf
      have hfc : matchFlagColon (['a'] ++ ':' :: (name ++ ':' :: (ds ++ '>' :: rest))) =
          some (2, name ++ ':' :: (ds ++ '>' :: rest)) :=
        matchFlagColon_some_iff.mpr (Or.inr ⟨rfl, rfl⟩)
      simp only [matchAt, if_pos rfl, if_true, eq_self_iff_true, hfc, hnc, hig,
        Option.some.injEq, Prod.mk.injEq, List.length_cons, List.length_nil]
      exact ⟨by omega, trivial⟩

/-- A successful match consumes at least one character (in fact at least
22). -/
theorem matchAt_pos {l : List Char} {len : Nat} {id : String}
    (h : matchAt l = some (len, id)) : 0 < len := by
  rcases matchAt_some_iff.mp h with ⟨flag, name, ds, rest, _, _, _, _, _, _, _, hlen, _⟩
  omega

/-- A successful match stays within the input. -/
theorem matchAt_le {l : List Char} {len : Nat} {id : String}
    (h : matchAt l = some (len, id)) : len ≤ l.length := by
  rcases matchAt_some_iff.mp h with ⟨flag, name, ds, rest, hl, _, _, _, _, _, _, hlen, _⟩
  subst hl
  simp [List.length_append]
  omega

/-- Truncating the input at the match end preserves the match: the matched
substring itself matches, with the same length and capture. -/
theorem matchAt_take {l : List Char} {len : Nat} {id : String}
    (h : matchAt l = some (len, id)) : matchAt (l.take len) = some (len, id) := by
  rcases matchAt_some_iff.mp h with
    ⟨flag, name, ds, rest, hl, hflag, hne, hnm, hdm, h17, h19, hlen, hid⟩
  have hpre : l.take len = '<' :: (flag ++ ':' :: (name ++ ':' :: (ds ++ '>' :: []))) := by
    subst hl
    have : ('<' :: (flag ++ ':' :: (name ++ ':' :: (ds ++ '>' :: rest)))) =
        ('<' :: (flag ++ ':' :: (name ++ ':' :: (ds ++ '>' :: [])))) ++ rest := by
      simp
    rw [this]
    exact List.take_left' (by simp; omega)
  rw [hpre]
  exact matchAt_some_iff.mpr
    ⟨flag, name, ds, [], rfl, hflag, hne, hnm, hdm, h17, h19, hlen, hid⟩

/-! ### The scanner produces well-formed match lists -/

theorem segsOK_cons_none {l : List Char} {last : Nat}
    {ms : List (Nat × Nat × String)}
    (hnone : matchAt (l.drop last) = none)
    (h : SegsOK l (last + 1) ms) : SegsOK l last ms := by
  cases h with
  | nil _ hle hgap =>
    refine SegsOK.nil last (by omega) ?_
    intro k hk
    rcases Nat.eq_or_lt_of_le hk with heq | hlt
    · rw [← heq]; exact hnone
    · exact hgap k hlt
  | cons _ st en id ms hle hgap hm hlt hen htail =>
    refine SegsOK.cons last st en id ms (by omega) ?_ hm hlt hen htail
    intro k hk hkst
    rcases Nat.eq_or_lt_of_le hk with heq | hlt2
    · rw [← heq]; exact hnone
    · exact hgap k hlt2 hkst

theorem findFromFuel_segsOK :
    ∀ (fuel : Nat) (l : List Char) (pos : Nat),
      l.length - pos ≤ fuel → pos ≤ l.length →
      SegsOK l pos (findFromFuel fuel (l.drop pos) pos) := by
  intro fuel
  induction fuel with
  | zero =>
    intro l pos hfuel hpos
    refine SegsOK.nil pos hpos ?_
    intro k hk
    have hk2 : l.length ≤ k := by omega
    rw [List.drop_eq_nil_of_le hk2]
    rfl
  | succ fuel ih =>
    intro l pos hfuel hpos
    cases hdrop : l.drop pos with
    | nil =>
      show SegsOK l pos (findFromFuel (fuel + 1) [] pos)
      refine SegsOK.nil pos hpos ?_
      intro k hk
      have hlp : l.length ≤ pos := List.drop_eq_nil_iff.mp hdrop
      rw [List.drop_eq_nil_of_le (by omega)]
      rfl
    | cons c rest =>
      have hlen_drop : l.length - pos = rest.length + 1 := by
        have := congrArg List.length hdrop
        simpa [List.length_drop] using this
      show SegsOK l pos (findFromFuel (fuel + 1) (c :: rest) pos)
      simp only [findFromFuel]
      cases hm : matchAt (c :: rest) with
      | none =>
        have hrest : rest = l.drop (pos + 1) := by
          have h2 := List.tail_drop l pos
          rw [hdrop] at h2
          simpa using h2
        rw [hrest]
        refine segsOK_cons_none ?_ (ih l (pos + 1) (by omega) (by omega))
        rw [hdrop]
        exact hm
      | some m =>
        obtain ⟨len, id⟩ := m
        have hpos_len := matchAt_pos hm
        have hle_len : len ≤ rest.length + 1 := by
          have := matchAt_le hm
          simpa using this
        have hdd : (c :: rest).drop len = l.drop (pos + len) := by
          rw [← hdrop, List.drop_drop]
        show SegsOK l pos
          ((pos, pos + len, id) :: findFromFuel fuel ((c :: rest).drop len) (pos + len))
        rw [hdd]
        refine SegsOK.cons pos pos (pos + len) id _ (Nat.le_refl pos)
          (by intro k hk1 hk2; omega) ?_ (by omega) (by omega) ?_
        · have hsub : pos + len - pos = len := by omega
          rw [hdrop, hsub]
          exact hm
        · exact ih l (pos + len) (by omega) (by omega)

theorem findFrom_segsOK (l : List Char) : SegsOK l 0 (findFrom l 0) := by
  have h := findFromFuel_segsOK l.length l 0 (by omega) (by omega)
  rw [List.drop_zero] at h
  exact h

/-! ### The imperative loop equals the cursor recursion -/

theorem foldl_parseStep_eq (get : Resolver) (l : List Char) :
    ∀ (ms : List (Nat × Nat × String)) (acc : List Token) (last : Nat),
      (ms.foldl (parseStep get l) (acc, last)).1 ++
        raw_parse_emoji get
          (String.mk (l.drop (ms.foldl (parseStep get l) (acc, last)).2)) =
      acc ++ tokensFromMatches get l ms last := by
  intro ms
  induction ms with
  | nil => intro acc last; simp [tokensFromMatches]
  | cons m ms ih =>
    intro acc last
    obtain ⟨st, en, id⟩ := m
    have hstep : parseStep get l (acc, last) (st, en, id) =
        (acc ++ raw_parse_emoji get (String.mk ((l.drop last).take (st - last)))
          ++ [Token.new_custom_emoji id], en) := rfl
    simp only [List.foldl_cons, hstep, ih]
    simp [tokensFromMatches, List.append_assoc]

theorem raw_parse_eq_matches (get : Resolver) (s : String) :
    raw_parse get s = tokensFromMatches get s.toList (findFrom s.toList 0) 0 := by
  have h := foldl_parseStep_eq get s.toList (findFrom s.toList 0) [] 0
  simpa [raw_parse] using h

/-! ### The character-level scanner -/

theorem raw_parse_emoji_eq_map (get : Resolver) (s : String) :
    raw_parse_emoji get s = s.toList.map (fun c =>
      match get c.toString with
      | some v => Token.new_emoji v
      | none => Token.new_text c.toString) := by
  simp only [raw_parse_emoji, List.map_map]
  rfl

theorem mem_raw_parse_emoji {get : Resolver} {s : String} {t : Token}
    (h : t ∈ raw_parse_emoji get s) :
    (∃ c : Char, t = Token.new_text c.toString ∧ get c.toString = none) ∨
    (∃ (c : Char) (v : List Nat), t = Token.new_emoji v ∧ get c.toString = some v) := by
  rw [raw_parse_emoji_eq_map] at h
  rcases List.mem_map.mp h with ⟨c, _, ht⟩
  cases hv : get c.toString with
  | none =>
    rw [hv] at ht
    exact Or.inl ⟨c, ht.symm, hv⟩
  | some v =>
    rw [hv] at ht
    exact Or.inr ⟨c, v, ht.symm, hv⟩

theorem forall2_raw_parse_emoji (get : Resolver) (cs : List Char) :
    List.Forall₂ (Represents get) (raw_parse_emoji get (String.mk cs))
      (cs.map Char.toString) := by
  induction cs with
  | nil => simp [raw_parse_emoji]
  | cons c cs ih =>
    have hcons : raw_parse_emoji get (String.mk (c :: cs)) =
        (match get c.toString with
          | some v => Token.new_emoji v
          | none => Token.new_text c.toString) :: raw_parse_emoji get (String.mk cs) := by
      rw [raw_parse_emoji_eq_map, raw_parse_emoji_eq_map]
      rfl
    rw [hcons, List.map_cons]
    refine List.Forall₂.cons ?_ ih
    cases hv : get c.toString with
    | none => exact rfl
    | some v => exact ⟨⟨c, rfl⟩, hv⟩

/-! ### Reconstruction of the input from the token literals -/

theorem foldr_map_toString (cs : List Char) (init : String) :
    (cs.map Char.toString).foldr (fun a b => a ++ b) init = String.mk cs ++ init := by
  induction cs with
  | nil =>
    cases init
    rfl
  | cons c cs ih =>
    simp only [List.map_cons, List.foldr_cons, ih]
    cases init
    rfl

theorem drop_decompose {l : List Char} {a b : Nat} (hab : a ≤ b) :
    (l.drop a).take (b - a) ++ l.drop b = l.drop a := by
  have h1 : (l.drop a).drop (b - a) = l.drop b := by
    rw [List.drop_drop]
    congr 1
    omega
  rw [← h1]
  exact List.take_append_drop _ _

theorem litsOf_foldr {l : List Char} :
    ∀ {ms : List (Nat × Nat × String)} {last : Nat}, SegsOK l last ms →
      (litsOf l ms last).foldr (fun a b => a ++ b) "" = String.mk (l.drop last) := by
  intro ms last h
  induction h with
  | nil last hle hgap =>
    simp only [litsOf]
    rw [foldr_map_toString]
    show String.mk (l.drop last) ++ String.mk [] = String.mk (l.drop last)
    rw [string_mk_append, List.append_nil]
  | cons last st en id ms hle hgap hm hlt hen htail ih =>
    simp only [litsOf, List.foldr_append, List.foldr_cons]
    rw [ih, foldr_map_toString, string_mk_append, string_mk_append,
      drop_decompose (Nat.le_of_lt hlt), drop_decompose hle]

theorem forall2_append {α β : Type} {R : α → β → Prop} :
    ∀ {a c : List α} {b d : List β}, List.Forall₂ R a b → List.Forall₂ R c d →
      List.Forall₂ R (a ++ c) (b ++ d) := by
  intro a c b d h1 h2
  induction h1 with
  | nil => simpa
  | cons hx _ ih => exact List.Forall₂.cons hx ih

theorem forall2_tokensFromMatches (get : Resolver) {l : List Char} :
    ∀ {ms : List (Nat × Nat × String)} {last : Nat}, SegsOK l last ms →
      List.Forall₂ (Represents get) (tokensFromMatches get l ms last)
        (litsOf l ms last) := by
  intro ms last h
  induction h with
  | nil last hle hgap =>
    simp only [tokensFromMatches, litsOf]
    exact forall2_raw_parse_emoji get (l.drop last)
  | cons last st en id ms hle hgap hm hlt hen htail ih =>
    simp only [tokensFromMatches, litsOf]
    refine forall2_append (forall2_raw_parse_emoji get _) (List.Forall₂.cons ?_ ih)
    refine ⟨id, ?_, rfl⟩
    rw [toList_string_mk]
    have hlen : en - st ≤ (l.drop st).length := matchAt_le hm
    rw [List.length_take, Nat.min_eq_left hlen]
    exact matchAt_take hm

/-! ### The fully-checked loop never hits a panic branch -/

theorem capturesGroup1_of_matchAt {l : List Char} {len : Nat} {id : String}
    (h : matchAt l = some (len, id)) : capturesGroup1 l = some id := by
  cases l with
  | nil => simp [matchAt] at h
  | cons c rest => simp [capturesGroup1, h]

theorem tokensFromChecked_eq (get : Resolver) {l : List Char} :
    ∀ {ms : List (Nat × Nat × String)} {last : Nat}, SegsOK l last ms →
      tokensFromChecked get l ms last = some (tokensFromMatches get l ms last) := by
  intro ms last h
  induction h with
  | nil last hle hgap =>
    have hslice : sliceChecked l last l.length = some (l.drop last) := by
      rw [sliceChecked, if_pos ⟨hle, Nat.le_refl _⟩]
      congr 1
      rw [← List.length_drop last l]
      exact List.take_length _
    simp [tokensFromChecked, tokensFromMatches, hslice]
  | cons last st en id ms hle hgap hm hlt hen htail ih =>
    have h1 : sliceChecked l last st = some ((l.drop last).take (st - last)) := by
      rw [sliceChecked, if_pos ⟨hle, by omega⟩]
    have h2 : sliceChecked l st en = some ((l.drop st).take (en - st)) := by
      rw [sliceChecked, if_pos ⟨Nat.le_of_lt hlt, hen⟩]
    have h3 : capturesGroup1 ((l.drop st).take (en - st)) = some id :=
      capturesGroup1_of_matchAt (matchAt_take hm)
    simp [tokensFromChecked, tokensFromMatches, h1, h2, h3, ih]

/-! ### Case analysis on output tokens -/

theorem tokensFromMatches_cases (get : Resolver) (l : List Char) :
    ∀ (ms : List (Nat × Nat × String)) (last : Nat) (t : Token),
      t ∈ tokensFromMatches get l ms last →
      (∃ c : Char, t = Token.new_text c.toString) ∨
      (∃ v, t = Token.new_emoji v) ∨
      (∃ id, t = Token.new_custom_emoji id) := by
  intro ms
  induction ms with
  | nil =>
    intro last t ht
    simp only [tokensFromMatches] at ht
    rcases mem_raw_parse_emoji ht with ⟨c, hc, _⟩ | ⟨c, v, hv, _⟩
    · exact Or.inl ⟨c, hc⟩
    · exact Or.inr (Or.inl ⟨v, hv⟩)
  | cons m ms ih =>
    intro last t ht
    obtain ⟨st, en, id⟩ := m
    simp only [tokensFromMatches, List.mem_append, List.mem_cons] at ht
    rcases ht with hsp | heq | hrec
    · rcases mem_raw_parse_emoji hsp with ⟨c, hc, _⟩ | ⟨c, v, hv, _⟩
      · exact Or.inl ⟨c, hc⟩
      · exact Or.inr (Or.inl ⟨v, hv⟩)
    · exact Or.inr (Or.inr ⟨id, heq⟩)
    · exact ih en t hrec

theorem raw_parse_emoji_none (get : Resolver) :
    ∀ cs : List Char, (∀ c ∈ cs, get c.toString = none) →
      raw_parse_emoji get (String.mk cs) =
        cs.map (fun c => Token.new_text c.toString) := by
  intro cs
  induction cs with
  | nil => intro _; rfl
  | cons c cs ih =>
    intro h
    have htail := ih (fun x hx => h x (List.mem_cons_of_mem c hx))
    rw [raw_parse_emoji_eq_map, toList_string_mk] at htail ⊢
    simp only [List.map_cons, h c (List.mem_cons_self c cs), htail]

/-! ### Claim theorems -/

/-- Claim C1: for every input string, concatenating the literal forms
represented by the output tokens of parse (a `Text` token contributes its
character, an `Emoji` token the character the resolver matched, a
`CustomEmoji` token its original matched markup substring) reconstructs
the input string exactly. -/
theorem claim_c1_order_preservation (get : Resolver) (s : String) :
    ∃ lits : List String,
      List.Forall₂ (Represents get) (raw_parse get s) lits ∧
      lits.foldr (fun a b => a ++ b) "" = s := by
  refine ⟨litsOf s.toList (findFrom s.toList 0) 0, ?_, ?_⟩
  · rw [raw_parse_eq_matches]
    exact forall2_tokensFromMatches get (findFrom_segsOK s.toList)
  · rw [litsOf_foldr (findFrom_segsOK s.toList), List.drop_zero, string_mk_toList]

/-- Claim C2: `raw_parse_emoji` emits exactly one token per Unicode scalar
value in original order — an `Emoji` token wrapping the resolver's bytes
when the resolver returns some, otherwise a `Text` token wrapping that
scalar's single-character string — and the empty string produces the empty
token sequence. -/
theorem claim_c2_char_scanner (get : Resolver) (s : String) :
    raw_parse_emoji get s = s.toList.map (fun c =>
      match get c.toString with
      | some v => Token.new_emoji v
      | none => Token.new_text c.toString) ∧
    raw_parse_emoji get "" = [] :=
  ⟨raw_parse_emoji_eq_map get s, rfl⟩

/-- Claim C3: with custom-emoji support enabled the tokenizer processes the
leftmost-first, non-overlapping matches of the markup pattern via a cursor:
the imperative loop equals the cursor recursion `tokensFromMatches` over
the match list, the match list is well formed (`SegsOK`: in order,
non-overlapping, leftmost-complete), and a zero-length span yields no
tokens. -/
theorem claim_c3_cursor_algorithm (get : Resolver) (s : String) :
    raw_parse get s = tokensFromMatches get s.toList (findFrom s.toList 0) 0 ∧
    SegsOK s.toList 0 (findFrom s.toList 0) ∧
    raw_parse_emoji get "" = [] :=
  ⟨raw_parse_eq_matches get s, findFrom_segsOK s.toList, rfl⟩

/-- Claim C4: a substring is recognised as a custom-emoji markup reference
exactly when it has the form `<` optional animation flag `:` name `:` id
`>` with name one or more ASCII letters, digits, or underscores and id a
run of 17 to 19 ASCII digits; shorter or longer digit runs are not
matched, and the extracted id string is the captured digit run,
unvalidated. -/
theorem claim_c4_markup_shape (l : List Char) (len : Nat) (id : String) :
    matchAt l = some (len, id) ↔
      (len ≤ l.length ∧ IsMarkup (String.mk (l.take len)) id) := by
  constructor
  · intro h
    refine ⟨matchAt_le h, ?_⟩
    have htake := matchAt_take h
    rcases matchAt_some_iff.mp htake with
      ⟨flag, name, ds, rest, hl, hflag, hne, hnm, hdm, h17, h19, hlen, hid⟩
    have hlen_take : (l.take len).length = len := by
      rw [List.length_take, Nat.min_eq_left (matchAt_le h)]
    have hrest : rest = [] := by
      have hcl := congrArg List.length hl
      rw [hlen_take] at hcl
      simp only [List.length_cons, List.length_append] at hcl
      have : rest.length = 0 := by omega
      exact List.length_eq_zero.mp this
    refine ⟨flag, name, ds, ?_, hflag, hne, hnm, hdm, h17, h19, hid⟩
    rw [toList_string_mk, hl, hrest]
  · rintro ⟨hle, hmark⟩
    obtain ⟨flag, name, ds, hl, hflag, hne, hnm, hdm, h17, h19, hid⟩ := hmark
    rw [toList_string_mk] at hl
    have hlen_take : (l.take len).length = len := by
      rw [List.length_take, Nat.min_eq_left hle]
    have hlform : l = '<' :: (flag ++ ':' :: (name ++ ':' :: (ds ++ '>' :: l.drop len))) := by
      conv_lhs => rw [← List.take_append_drop len l]
      rw [hl]
      simp [List.append_assoc]
    have hlen_eq : len = flag.length + name.length + ds.length + 4 := by
      have hcl := congrArg List.length hl
      rw [hlen_take] at hcl
      simp only [List.length_cons, List.length_append, List.length_nil] at hcl
      omega
    exact matchAt_some_iff.mpr
      ⟨flag, name, ds, l.drop len, hlform, hflag, hne, hnm, hdm, h17, h19, hlen_eq, hid⟩

/-- Claim C5: every `CustomEmoji` token constructed from an extracted id
wraps exactly the interpolation of the id into the fixed URL template
`https://cdn.discordapp.com/emojis/<id>.png?size=96`, and every
`CustomEmoji` token in the output of parse is of that form. -/
theorem claim_c5_url_template (get : Resolver) (s : String) :
    (∀ id : String, Token.new_custom_emoji id =
      Token.CustomEmoji ("https://cdn.discordapp.com/emojis/" ++ id ++ ".png?size=96")) ∧
    (∀ (t : Token) (u : String), t ∈ raw_parse get s → t = Token.CustomEmoji u →
      ∃ id, u = "https://cdn.discordapp.com/emojis/" ++ id ++ ".png?size=96") := by
  refine ⟨fun id => rfl, ?_⟩
  intro t u ht heq
  rw [raw_parse_eq_matches] at ht
  rcases tokensFromMatches_cases get s.toList _ _ t ht with ⟨c, hc⟩ | ⟨v, hv⟩ | ⟨id, hid⟩
  · rw [heq] at hc
    exact absurd hc (by simp [Token.new_text])
  · rw [heq] at hv
    exact absurd hv (by simp [Token.new_emoji])
  · rw [hid] at heq
    have hu := heq
    simp only [Token.new_custom_emoji, Token.CustomEmoji.injEq] at hu
    exact ⟨id, hu.symm⟩

/-- Witness for C5 at a concrete input containing one markup reference. -/
theorem claim_c5_witness :
    ∃ id, "https://cdn.discordapp.com/emojis/12345678901234567.png?size=96" =
      "https://cdn.discordapp.com/emojis/" ++ id ++ ".png?size=96" :=
  (claim_c5_url_template (fun _ => none) "<a:x:12345678901234567>").2
    (Token.new_custom_emoji "12345678901234567")
    "https://cdn.discordapp.com/emojis/12345678901234567.png?size=96"
    (by decide) (by decide)

/-- Claim C6: with custom-emoji scanning enabled, parsing
`"Hello <a:pepega:123456789012345678> World"` yields exactly 13 tokens in
order — the six `Text` tokens of `"Hello "`, one `CustomEmoji` token built
from id `"123456789012345678"`, then the six `Text` tokens of `" World"` —
for any resolver that maps none of those plain characters. -/
theorem claim_c6_test_example (get : Resolver)
    (h : ∀ c : Char, c ∈ ("Hello  World").toList → get c.toString = none) :
    raw_parse get "Hello <a:pepega:123456789012345678> World" =
      [Token.new_text "H", Token.new_text "e", Token.new_text "l",
       Token.new_text "l", Token.new_text "o", Token.new_text " ",
       Token.new_custom_emoji "123456789012345678",
       Token.new_text " ", Token.new_text "W", Token.new_text "o",
       Token.new_text "r", Token.new_text "l", Token.new_text "d"] := by
  rw [raw_parse_eq_matches]
  have hf : findFrom ("Hello <a:pepega:123456789012345678> World").toList 0 =
      [(6, 35, "123456789012345678")] := rfl
  rw [hf]
  simp only [tokensFromMatches]
  have hspan1 : ((("Hello <a:pepega:123456789012345678> World").toList.drop 0).take (6 - 0)) =
      ['H', 'e', 'l', 'l', 'o', ' '] := rfl
  have hspan2 : (("Hello <a:pepega:123456789012345678> World").toList.drop 35) =
      [' ', 'W', 'o', 'r', 'l', 'd'] := rfl
  have hsub1 : ∀ c ∈ ['H', 'e', 'l', 'l', 'o', ' '],
      c ∈ ("Hello  World").toList := by decide
  have hsub2 : ∀ c ∈ [' ', 'W', 'o', 'r', 'l', 'd'],
      c ∈ ("Hello  World").toList := by decide
  rw [hspan1, hspan2, raw_parse_emoji_none get _ (fun c hc => h c (hsub1 c hc)),
    raw_parse_emoji_none get _ (fun c hc => h c (hsub2 c hc))]
  rfl

/-- Witness for C6: the trivial resolver maps nothing. -/
theorem claim_c6_witness :
    raw_parse (fun _ => none) "Hello <a:pepega:123456789012345678> World" =
      [Token.new_text "H", Token.new_text "e", Token.new_text "l",
       Token.new_text "l", Token.new_text "o", Token.new_text " ",
       Token.new_custom_emoji "123456789012345678",
       Token.new_text " ", Token.new_text "W", Token.new_text "o",
       Token.new_text "r", Token.new_text "l", Token.new_text "d"] :=
  claim_c6_test_example (fun _ => none) (fun _ _ => rfl)

/-- Claim C7: with custom-emoji support disabled, parse equals the
character-level scanner applied to the whole input, and no `CustomEmoji`
token is ever emitted (every token is `Text` or `Emoji`). -/
theorem claim_c7_disabled_mode (get : Resolver) (s : String) :
    parse_nodiscord get s = raw_parse_emoji get s ∧
    (∀ t ∈ parse_nodiscord get s,
      (∃ str, t = Token.Text str) ∨ (∃ v, t = Token.Emoji v)) := by
  refine ⟨rfl, ?_⟩
  intro t ht
  rcases mem_raw_parse_emoji ht with ⟨c, hc, _⟩ | ⟨c, v, hv, _⟩
  · exact Or.inl ⟨c.toString, hc⟩
  · exact Or.inr ⟨v, hv⟩

/-- Witness for C7 at the one-character input `"x"`. -/
theorem claim_c7_witness :
    (∃ str, Token.new_text "x" = Token.Text str) ∨
    (∃ v, Token.new_text "x" = Token.Emoji v) :=
  (claim_c7_disabled_mode (fun _ => none) "x").2 (Token.new_text "x") (by decide)

/-- Claim C8: every `Text` token in the output of parse wraps a string of
exactly one Unicode scalar value. -/
theorem claim_c8_text_singleton (get : Resolver) (s : String) (t : Token)
    (str : String) (ht : t ∈ parse get s) (heq : t = Token.Text str) :
    str.toList.length = 1 := by
  rw [show parse get s = raw_parse get s from rfl, raw_parse_eq_matches] at ht
  rcases tokensFromMatches_cases get s.toList _ _ t ht with ⟨c, hc⟩ | ⟨v, hv⟩ | ⟨id, hid⟩
  · rw [heq] at hc
    have hstr : str = c.toString := by
      simpa [Token.new_text] using hc
    rw [hstr, char_toString, toList_string_mk]
    rfl
  · rw [heq] at hv
    exact absurd hv (by simp [Token.new_emoji])
  · rw [heq] at hid
    exact absurd hid (by simp [Token.new_custom_emoji])

/-- Witness for C8 at the one-character input `"A"`. -/
theorem claim_c8_witness : ("A" : String).toList.length = 1 :=
  claim_c8_text_singleton (fun _ => none) "A" (Token.Text "A") "A" (by decide) rfl

/-- Claim C9: the tokenizer is deterministic — parsing structurally equal
inputs with the same (pure) resolver yields structurally equal token
sequences. -/
theorem claim_c9_deterministic (get : Resolver) (s1 s2 : String) (h : s1 = s2) :
    parse get s1 = parse get s2 := by rw [h]

/-- Witness for C9. -/
theorem claim_c9_witness :
    parse (fun _ => none) "ab" = parse (fun _ => none) "ab" :=
  claim_c9_deterministic (fun _ => none) "ab" "ab" rfl

/-- Claim C10: the custom-emoji tokenizer is total and never panics: the
fully-checked execution — with both loop slices, the trailing slice, and
the `captures`/group-1 `unwrap`s modelled as fallible — always succeeds
and returns exactly the tokens of `raw_parse`. -/
theorem claim_c10_no_panic (get : Resolver) (s : String) :
    raw_parse_checked get s = some (raw_parse get s) := by
  rw [raw_parse_checked, raw_parse_eq_matches]
  exact tokensFromChecked_eq get (findFrom_segsOK s.toList)

end RustwemojiParser
